import Mathlib

/-!
Verification of the `printable-shell-command` library
(src/src/PrintableShellCommand.ts) via a shallow embedding.

Strings are modelled as `List Char` (named `Chars` below).  JavaScript
`String.prototype.replaceAll` with a one-character pattern is modelled as a
per-character `List.bind`; `Array.prototype.flat()` (depth 1) and
`Array.prototype.join` are modelled by structurally identical recursive
functions.  Methods that throw (`#argPairSeparator`, `#intraEntrySeparator`
on an unrecognized `argumentLineWrapping` value) are modelled in the
`Except` monad.  `Path` arguments are identified with their
`stringifyIfPath` image, so `SingleArgument` is simply a string.  The
cosmetic `style` option (a final `styleText` wrapper around the finished
text) is outside the model, as are the process-spawning side effects; of
`spawn` we model only the argv it hands to `node:child_process`.
-/

namespace PSC

/-- Strings as lists of characters. -/
abbrev Chars := List Char

/-- The single-quote character (code 39). -/
def squote : Char := Char.ofNat 39

/-- The backslash character (code 92). -/
def bslash : Char := Char.ofNat 92

/-- The newline character (code 10). -/
def nlChar : Char := Char.ofNat 10

/-- The horizontal tab character (code 9). -/
def tabChar : Char := Char.ofNat 9

/-- The double-quote character (code 34). -/
def dquote : Char := Char.ofNat 34

/-- The backtick character (code 96). -/
def btick : Char := Char.ofNat 96

/-- The opening curly brace character (code 123). -/
def obrace : Char := Char.ofNat 123

/-- The closing curly brace character (code 125). -/
def cbrace : Char := Char.ofNat 125

/-- Source constant `SPECIAL_SHELL_CHARACTERS` (PrintableShellCommand.ts,
lines 114-135): the set of characters that force quoting.  The source uses
a JS `Set`; membership-only usage makes a list a faithful model. -/
def SPECIAL_SHELL_CHARACTERS : Chars :=
  [' ', dquote, squote, btick, '|', '$', '*', '?', '>', '<',
   '(', ')', '[', ']', obrace, cbrace, '&', bslash, ';', '#']

/-- Source constant `SPECIAL_SHELL_CHARACTERS_FOR_MAIN_COMMAND` (lines
138-140): the union of `SPECIAL_SHELL_CHARACTERS` with the equals sign. -/
def SPECIAL_SHELL_CHARACTERS_FOR_MAIN_COMMAND : Chars :=
  SPECIAL_SHELL_CHARACTERS ++ ['=']

/-- Source constant `DEFAULT_MAIN_INDENTATION = ""`. -/
def DEFAULT_MAIN_INDENTATION : Chars := []

/-- Source constant `DEFAULT_ARG_INDENTATION = "  "` (two spaces). -/
def DEFAULT_ARG_INDENTATION : Chars := [' ', ' ']

/-- Source constant `DEFAULT_ARGUMENT_LINE_WRAPPING = "by-entry"`. -/
def DEFAULT_ARGUMENT_LINE_WRAPPING : Chars := "by-entry".toList

/-- Source constant `INLINE_SEPARATOR = " "`. -/
def INLINE_SEPARATOR : Chars := [' ']

/-- Source constant `LINE_WRAP_LINE_END`: the three-character string of a
space, a backslash and a newline. -/
def LINE_WRAP_LINE_END : Chars := [' ', bslash, nlChar]

/-- The string value "extra-safe" of the `quoting` option. -/
def EXTRA_SAFE : Chars := "extra-safe".toList

/-- Shallow embedding of the `PrintOptions` interface (lines 69-97).  The
`quoting` and `argumentLineWrapping` fields hold raw runtime strings, as
JavaScript does not enforce the declared union types at runtime; absent
fields are `none` (JS `undefined`).  The cosmetic `style` field is outside
the model. -/
structure PrintOptions where
  mainIndentation : Option Chars := none
  argIndentation : Option Chars := none
  quoting : Option Chars := none
  argumentLineWrapping : Option Chars := none
  skipLineWrapBeforeFirstArg : Option Bool := none

/-- Options object `{}`: every field absent. -/
def defaultOptions : PrintOptions := {}

/-- Model of `arg.replaceAll("\\", "\\\\")` (line 656, first pass): the
pattern is the single backslash character, so the scan is per-character. -/
def replaceAllBackslashes (s : Chars) : Chars :=
  s.flatMap (fun c => if c = bslash then [bslash, bslash] else [c])

/-- Model of `.replaceAll("'", "\\'")` (line 656, second pass): the pattern
is the single-quote character. -/
def replaceAllQuotes (s : Chars) : Chars :=
  s.flatMap (fun c => if c = squote then [bslash, squote] else [c])

/-- Source function `escapeArg` (lines 640-660).  The JS code checks
`options?.quoting === "extra-safe"` or a non-empty intersection of the
token's character set with the applicable special set; non-empty
intersection of `new Set(arg)` with a set is equivalent to some character
of `arg` being special. -/
def escapeArg (arg : Chars) (isMainCommand : Bool) (options : PrintOptions) : Chars :=
  let specialShellCharacters :=
    if isMainCommand then SPECIAL_SHELL_CHARACTERS_FOR_MAIN_COMMAND
    else SPECIAL_SHELL_CHARACTERS
  if options.quoting = some EXTRA_SAFE
      ∨ arg.any (fun c => specialShellCharacters.contains c) then
    let escaped := replaceAllQuotes (replaceAllBackslashes arg)
    [squote] ++ escaped ++ [squote]
  else arg

/-- Helper naming the quoting condition of `escapeArg` (the disjunction in
lines 649-654 of the source). -/
def requiresQuoting (arg : Chars) (isMainCommand : Bool) (options : PrintOptions) : Prop :=
  options.quoting = some EXTRA_SAFE
    ∨ arg.any (fun c =>
        (if isMainCommand then SPECIAL_SHELL_CHARACTERS_FOR_MAIN_COMMAND
         else SPECIAL_SHELL_CHARACTERS).contains c) = true

instance (arg : Chars) (b : Bool) (o : PrintOptions) :
    Decidable (requiresQuoting arg b o) := by
  unfold requiresQuoting
  infer_instance

/-- Model of the `ArgsEntry` type (line 58): a single scalar argument or an
array of scalars (`Path`s identified with their string form). -/
inductive ArgsEntry where
  | scalar (s : Chars)
  | group (xs : List Chars)
deriving DecidableEq

/-- Model of a constructed `PrintableShellCommand` object: the validated
`#commandName` and `args` fields. -/
structure Command where
  commandName : Chars
  args : List ArgsEntry
deriving DecidableEq

/-- Model of `Array.prototype.flat()` at depth 1 as used in
`toCommandWithFlatArgs` (line 204): scalars pass through, arrays are
spliced in place. -/
def jsFlat : List ArgsEntry → List Chars
  | [] => []
  | .scalar s :: rest => s :: jsFlat rest
  | .group xs :: rest => xs ++ jsFlat rest

/-- Source method `toCommandWithFlatArgs` (lines 203-205). -/
def toCommandWithFlatArgs (c : Command) : Chars × List Chars :=
  (c.commandName, jsFlat c.args)

/-- Argv that `spawn` (lines 347-444) hands to the process-spawn facility:
the source calls `spawn(...this.toCommandWithFlatArgs(), ...)` at line 365. -/
def spawnArgv (c : Command) : Chars × List Chars :=
  toCommandWithFlatArgs c

/-- The values of one entry, in order (a scalar contributes itself, a group
its members). -/
def entryValues : ArgsEntry → List Chars
  | .scalar s => [s]
  | .group xs => xs

/-- Modelled from the spec: "flattening `ordered sequence of ArgEntry` via
concatenation of each entry's values (in order)".  This is the spec-side
flattening, to be compared with the source-side `jsFlat`. -/
def flattenSpec (args : List ArgsEntry) : List Chars :=
  (args.map entryValues).flatten

/-- Model of `Array.prototype.join(sep)`: empty array gives the empty
string, otherwise the elements with `sep` interleaved. -/
def jsJoin (sep : Chars) : List Chars → Chars
  | [] => []
  | [x] => x
  | x :: xs => x ++ sep ++ jsJoin sep xs

/-- Error thrown by the separator helpers on an unrecognized
`argumentLineWrapping` value ("Invalid argument line wrapping argument.",
lines 237 and 252). -/
inductive PrintError where
  | invalidArgumentLineWrapping
deriving DecidableEq

/-- Source getter `#mainIndentation` (lines 207-209). -/
def mainIndentation (options : PrintOptions) : Chars :=
  options.mainIndentation.getD DEFAULT_MAIN_INDENTATION

/-- Source getter `#argIndentation` (lines 211-216). -/
def argIndentation (options : PrintOptions) : Chars :=
  mainIndentation options ++ options.argIndentation.getD DEFAULT_ARG_INDENTATION

/-- Source getter `#lineWrapSeparator` (lines 218-220). -/
def lineWrapSeparator (options : PrintOptions) : Chars :=
  LINE_WRAP_LINE_END ++ argIndentation options

/-- Source method `#argPairSeparator` (lines 222-239): the separator used
between the members of a group entry.  The `default` branch of the JS
`switch` throws. -/
def argPairSeparator (options : PrintOptions) : Except PrintError Chars :=
  let w := options.argumentLineWrapping.getD DEFAULT_ARGUMENT_LINE_WRAPPING
  if w = "by-entry".toList then .ok INLINE_SEPARATOR
  else if w = "nested-by-entry".toList then
    .ok (lineWrapSeparator options ++ argIndentation options)
  else if w = "by-argument".toList then .ok (lineWrapSeparator options)
  else if w = "inline".toList then .ok INLINE_SEPARATOR
  else .error .invalidArgumentLineWrapping

/-- Source method `#intraEntrySeparator` (lines 241-254): the separator
used between top-level entries. -/
def intraEntrySeparator (options : PrintOptions) : Except PrintError Chars :=
  let w := options.argumentLineWrapping.getD DEFAULT_ARGUMENT_LINE_WRAPPING
  if w = "by-entry".toList ∨ w = "nested-by-entry".toList ∨ w = "by-argument".toList then
    .ok (LINE_WRAP_LINE_END ++ argIndentation options)
  else if w = "inline".toList then .ok INLINE_SEPARATOR
  else .error .invalidArgumentLineWrapping

/-- Source method `#separatorAfterCommand` (lines 256-267). -/
def separatorAfterCommand (options : PrintOptions) (numFollowingEntries : Nat) :
    Except PrintError Chars :=
  if numFollowingEntries = 0 then .ok []
  else if options.skipLineWrapBeforeFirstArg.getD false then .ok INLINE_SEPARATOR
  else intraEntrySeparator options

/-- Serialization of one entry inside the loop of `getPrintableCommand`
(lines 274-286): a scalar is escaped directly, a group maps `escapeArg`
over its members and joins with `#argPairSeparator` (whose evaluation can
throw). -/
def serializeEntry (options : PrintOptions) : ArgsEntry → Except PrintError Chars
  | .scalar s => .ok (escapeArg s false options)
  | .group xs =>
    match argPairSeparator options with
    | .error e => .error e
    | .ok sep => .ok (jsJoin sep (xs.map (fun part => escapeArg part false options)))

/-- The `serializedEntries` accumulation loop of `getPrintableCommand`
(lines 272-286), propagating a throw from any iteration. -/
def serializeEntries (options : PrintOptions) : List ArgsEntry → Except PrintError (List Chars)
  | [] => .ok []
  | e :: rest =>
    match serializeEntry options e with
    | .error err => .error err
    | .ok s =>
      match serializeEntries options rest with
      | .error err => .error err
      | .ok srest => .ok (s :: srest)

/-- Source method `getPrintableCommand` (lines 269-297), without the final
cosmetic `styleText` wrapper.  Note that the JS expression
`serializedEntries.join(this.#intraEntrySeparator(options))` evaluates the
separator argument even when `serializedEntries` is empty, so an
unrecognized `argumentLineWrapping` always throws. -/
def getPrintableCommand (c : Command) (options : PrintOptions) : Except PrintError Chars :=
  match serializeEntries options c.args with
  | .error e => .error e
  | .ok serializedEntries =>
    match separatorAfterCommand options serializedEntries.length with
    | .error e => .error e
    | .ok sepAfterCommand =>
      match intraEntrySeparator options with
      | .error e => .error e
      | .ok intraSep =>
        .ok (mainIndentation options ++ escapeArg c.commandName true options
          ++ sepAfterCommand ++ jsJoin intraSep serializedEntries)

/-! Untyped constructor input.  The TypeScript constructor (lines 155-183)
receives arbitrary runtime values; we model the JavaScript values that can
reach it: strings, `Path` objects, arrays, and anything else. -/

/-- Runtime JavaScript value passed to the constructor. -/
inductive JSVal where
  | str (s : Chars)
  | path (s : Chars)
  | arr (elems : List JSVal)
  | other

/-- Source predicate `isString` (lines 38-40). -/
def isStringVal : JSVal → Bool
  | .str _ => true
  | _ => false

/-- Source check `entry instanceof Path`. -/
def isPathVal : JSVal → Bool
  | .path _ => true
  | _ => false

/-- Source function `isValidArgsEntryArray` (lines 43-54): every element of
the array is a string or a `Path`.  Note that no length requirement is
imposed. -/
def isValidArgsEntryArray (entries : List JSVal) : Bool :=
  entries.all (fun entry => isStringVal entry || isPathVal entry)

/-- String carried by a scalar `JSVal` (its `stringifyIfPath` image);
placeholder `[]` otherwise (only applied to validated scalars). -/
def scalarChars : JSVal → Chars
  | .str s => s
  | .path s => s
  | _ => []

/-- Entry accepted by the constructor's validation loop: a string, a
`Path`, or an array of strings/`Path`s (of any length — the loop imposes
no size requirement). -/
def validEntry : JSVal → Bool
  | .str _ => true
  | .path _ => true
  | .arr elems => isValidArgsEntryArray elems
  | .other => false

/-- The `ArgsEntry` a valid constructor input is stored as. -/
def toEntry : JSVal → ArgsEntry
  | .str s => .scalar s
  | .path s => .scalar s
  | .arr elems => .group (elems.map scalarChars)
  | .other => .scalar []

/-- Errors thrown by the constructor (lines 159-181). -/
inductive ConstructError where
  | invalidCommandName
  | invalidArgEntry (i : Nat)
deriving DecidableEq

/-- The validation loop of the constructor (lines 170-182), with `i` the
index of the entry under inspection: a string or `Path` entry is kept as a
scalar, an array of scalars as a group, and anything else throws
`Invalid arg entry at index: i`. -/
def validateArgs : List JSVal → Nat → Except ConstructError (List ArgsEntry)
  | [], _ => .ok []
  | argEntry :: rest, i =>
    if isStringVal argEntry || isPathVal argEntry then
      (validateArgs rest (i + 1)).map (fun tail => .scalar (scalarChars argEntry) :: tail)
    else
      match argEntry with
      | .arr elems =>
        if isValidArgsEntryArray elems then
          (validateArgs rest (i + 1)).map
            (fun tail => .group (elems.map scalarChars) :: tail)
        else .error (.invalidArgEntry i)
      | _ => .error (.invalidArgEntry i)

/-- The constructor (lines 155-183): validates the command name, then each
args entry in order. -/
def construct (commandName : JSVal) (args : List JSVal) : Except ConstructError Command :=
  if isStringVal commandName || isPathVal commandName then
    (validateArgs args 0).map (fun entries => ⟨scalarChars commandName, entries⟩)
  else .error .invalidCommandName

/-! POSIX tokenization referee for the round-trip claim.

Modelled from the spec: "parsing `render()` as a POSIX shell line (after
removing backslash-newline continuations)".  We model the static word
recognition of POSIX shell: blanks (space, tab) separate fields; a
single-quoted region is literal up to the next single quote; outside
quotes a backslash escapes the next character, with backslash-newline
removed as a line continuation.  Characters whose POSIX treatment goes
beyond static tokenization (an unquoted or double-quoted `$` or backtick
triggers an expansion; an unquoted double quote opens a mode the renderer
never emits) and an unquoted bare newline (which ends the line) make the
input "not a single statically tokenizable line", signalled by `none` —
the renderer under the round-trip hypotheses never produces them. -/

/-- Tokenizer mode: outside quotes, inside a single-quoted region, or just
after an unquoted backslash. -/
inductive TokMode where
  | normal
  | inQuote
  | afterBackslash
deriving DecidableEq

/-- The word under construction: `none` when no word has been started,
`some w` once a word is open (a closed pair of quotes opens a word, so an
empty word is possible). -/
def flushWord : Option Chars → List Chars
  | none => []
  | some w => [w]

/-- Content of the word under construction. -/
def curChars (cur : Option Chars) : Chars :=
  cur.getD []

/-- Appending one literal character to the word under construction. -/
def pushChar (cur : Option Chars) (c : Char) : Option Chars :=
  some (curChars cur ++ [c])

/-- One-character-at-a-time POSIX field recognizer (see the section
comment above). -/
def tokStep : List Char → TokMode → Option Chars → List Chars → Option (List Chars)
  | [], .normal, cur, acc => some (acc ++ flushWord cur)
  | [], .inQuote, _, _ => none
  | [], .afterBackslash, _, _ => none
  | c :: rest, .inQuote, cur, acc =>
    if c = squote then tokStep rest .normal cur acc
    else tokStep rest .inQuote (pushChar cur c) acc
  | c :: rest, .afterBackslash, cur, acc =>
    if c = nlChar then tokStep rest .normal cur acc
    else tokStep rest .normal (pushChar cur c) acc
  | c :: rest, .normal, cur, acc =>
    if c = squote then tokStep rest .inQuote (some (curChars cur)) acc
    else if c = ' ' ∨ c = tabChar then tokStep rest .normal none (acc ++ flushWord cur)
    else if c = bslash then tokStep rest .afterBackslash cur acc
    else if c = nlChar ∨ c = dquote ∨ c = '$' ∨ c = btick then none
    else tokStep rest .normal (pushChar cur c) acc

/-- Tokens recovered by parsing a rendered command as one POSIX shell
line. -/
def posixTokens (s : Chars) : Option (List Chars) :=
  tokStep s .normal none []

/-! Predicates used in the statements of the theorems. -/

/-- The per-character escaping transform of `escapeArg`, fused into one
pass: each backslash becomes two backslashes, each single quote becomes
backslash-quote, everything else is kept. -/
def escChar (c : Char) : Chars :=
  if c = bslash then [bslash, bslash]
  else if c = squote then [bslash, squote] else [c]

/-- Character that the POSIX recognizer treats as an ordinary word
character outside quotes. -/
def Wordish (c : Char) : Prop :=
  c ≠ squote ∧ c ≠ ' ' ∧ c ≠ tabChar ∧ c ≠ bslash ∧ c ≠ nlChar
    ∧ c ≠ dquote ∧ c ≠ '$' ∧ c ≠ btick

/-- Token for which the rendered form parses back to the token itself:
nonempty and free of backslashes, single quotes, tabs and newlines. -/
def GoodTok (t : Chars) : Prop :=
  t ≠ [] ∧ ∀ c ∈ t, c ≠ bslash ∧ c ≠ squote ∧ c ≠ tabChar ∧ c ≠ nlChar

/-- Entry whose tokens are all good; a group moreover has at least two
members (the spec's validity invariant for groups). -/
def GoodEntry : ArgsEntry → Prop
  | .scalar s => GoodTok s
  | .group xs => 2 ≤ xs.length ∧ ∀ t ∈ xs, GoodTok t

/-- Recognized values of the `argumentLineWrapping` option (absent, or one
of the four strings of `ARGUMENT_LINE_WRAPPING_VALUES`). -/
def ValidWrap (w : Option Chars) : Prop :=
  w = none ∨ w = some "by-entry".toList ∨ w = some "nested-by-entry".toList
    ∨ w = some "by-argument".toList ∨ w = some "inline".toList

/-- Separator string that closes the word under construction and starts
the parser afresh: the behavior of all inter-token separators emitted by
the renderer. -/
def Breaker (sep : Chars) : Prop :=
  ∀ r w acc, tokStep (sep ++ r) .normal (some w) acc
    = tokStep r .normal none (acc ++ [w])

/-- Spec-side size invariant for one entry: groups have at least two
members. -/
def GroupSizeOK : ArgsEntry → Prop
  | .scalar _ => True
  | .group xs => 2 ≤ xs.length

/-- Spec-side validity of a Command (data-model invariant of the spec):
nonempty command name, and every group entry has at least two members. -/
def ValidCommand (c : Command) : Prop :=
  c.commandName ≠ [] ∧ ∀ e ∈ c.args, GroupSizeOK e

/-! Concrete inputs for counterexamples and witnesses. -/

/-- Command `echo` with the single three-character argument a-backslash-b. -/
def cexBackslashCmd : Command := ⟨"echo".toList, [.scalar ['a', bslash, 'b']]⟩

/-- Rendering of `cexBackslashCmd` under default options: the argument is
quoted with its backslash doubled. -/
def cexBackslashRendered : Chars :=
  "echo ".toList ++ [bslash, nlChar] ++ "  ".toList
    ++ [squote, 'a', bslash, bslash, 'b', squote]

/-- Command `echo` with a single argument ending in a newline character. -/
def cexNewlineCmd : Command := ⟨"echo".toList, [.scalar ['a', nlChar]]⟩

/-- Command `echo` with a single empty-string argument. -/
def emptyArgCmd : Command := ⟨"echo".toList, [.scalar []]⟩

/-- Pure rendering of one entry once the within-group separator `ps` is
known (the successful branch of `serializeEntry`). -/
def renderEntry (options : PrintOptions) (ps : Chars) : ArgsEntry → Chars
  | .scalar s => escapeArg s false options
  | .group xs => jsJoin ps (xs.map (fun part => escapeArg part false options))

/-- The rsync example of the repository's tests, shortened paths. -/
def rsyncCommand : Command :=
  ⟨"rsync".toList,
   [.scalar "-avz".toList,
    .group ["--exclude".toList, ".DS_Store".toList],
    .group ["--exclude".toList, ".git".toList],
    .scalar "./dist/x/".toList,
    .scalar "host:~/deploy/".toList]⟩

/-- The same tokens as `rsyncCommand`, regrouped into one large group and
scalars — flattens identically, renders differently. -/
def rsyncRegrouped : Command :=
  ⟨"rsync".toList,
   [.group ["-avz".toList, "--exclude".toList, ".DS_Store".toList],
    .scalar "--exclude".toList,
    .scalar ".git".toList,
    .scalar "./dist/x/".toList,
    .scalar "host:~/deploy/".toList]⟩

instance (t : Chars) : Decidable (GoodTok t) := by
  unfold GoodTok
  infer_instance

instance (e : ArgsEntry) : Decidable (GoodEntry e) := by
  cases e <;> (unfold GoodEntry; infer_instance)

instance (w : Option Chars) : Decidable (ValidWrap w) := by
  unfold ValidWrap
  infer_instance

instance (c : Char) : Decidable (Wordish c) := by
  unfold Wordish
  infer_instance

instance (e : ArgsEntry) : Decidable (GroupSizeOK e) := by
  cases e <;> (unfold GroupSizeOK; infer_instance)

instance (c : Command) : Decidable (ValidCommand c) := by
  unfold ValidCommand
  infer_instance

/-! Equation lemmas for the POSIX recognizer. -/

theorem tokStep_nil_normal (cur : Option Chars) (acc : List Chars) :
    tokStep [] .normal cur acc = some (acc ++ flushWord cur) := rfl

theorem tokStep_inQuote_close (r : List Char) (cur : Option Chars) (acc : List Chars) :
    tokStep (squote :: r) .inQuote cur acc = tokStep r .normal cur acc := by
  simp [tokStep]

theorem tokStep_inQuote_lit (c : Char) (h : c ≠ squote) (r : List Char)
    (cur : Option Chars) (acc : List Chars) :
    tokStep (c :: r) .inQuote cur acc = tokStep r .inQuote (pushChar cur c) acc := by
  simp [tokStep, h]

theorem tokStep_afterBackslash_nl (r : List Char) (cur : Option Chars) (acc : List Chars) :
    tokStep (nlChar :: r) .afterBackslash cur acc = tokStep r .normal cur acc := by
  simp [tokStep]

theorem tokStep_quote_open (r : List Char) (cur : Option Chars) (acc : List Chars) :
    tokStep (squote :: r) .normal cur acc = tokStep r .inQuote (some (curChars cur)) acc := by
  simp [tokStep]

theorem tokStep_space (r : List Char) (cur : Option Chars) (acc : List Chars) :
    tokStep (' ' :: r) .normal cur acc = tokStep r .normal none (acc ++ flushWord cur) := by
  have h1 : ¬((' ' : Char) = squote) := by decide
  simp [tokStep, h1]

theorem tokStep_bslash (r : List Char) (cur : Option Chars) (acc : List Chars) :
    tokStep (bslash :: r) .normal cur acc = tokStep r .afterBackslash cur acc := by
  have h1 : ¬(bslash = squote) := by decide
  have h2 : ¬(bslash = ' ' ∨ bslash = tabChar) := by decide
  simp [tokStep, h1, h2]

theorem tokStep_word (c : Char) (h : Wordish c) (r : List Char)
    (cur : Option Chars) (acc : List Chars) :
    tokStep (c :: r) .normal cur acc = tokStep r .normal (pushChar cur c) acc := by
  obtain ⟨h1, h2, h3, h4, h5, h6, h7, h8⟩ := h
  simp [tokStep, h1, h2, h3, h4, h5, h6, h7, h8]

/-! Lemmas about `escapeArg`. -/

theorem replace_passes_fused (t : Chars) :
    replaceAllQuotes (replaceAllBackslashes t) = t.flatMap escChar := by
  induction t with
  | nil => rfl
  | cons c t ih =>
    have hbs : ¬(bslash = squote) := by decide
    unfold replaceAllBackslashes replaceAllQuotes at ih ⊢
    simp only [List.flatMap_cons, List.flatMap_append]
    rw [ih]
    congr 1
    by_cases hb : c = bslash
    · subst hb
      simp [escChar, hbs]
    · by_cases hq : c = squote
      · subst hq
        simp [escChar, hb]
      · simp [escChar, hb, hq]

theorem escapeArg_quoted (arg : Chars) (b : Bool) (o : PrintOptions)
    (h : requiresQuoting arg b o) :
    escapeArg arg b o = [squote] ++ replaceAllQuotes (replaceAllBackslashes arg) ++ [squote] := by
  unfold requiresQuoting at h
  unfold escapeArg
  rw [if_pos h]

theorem escapeArg_unquoted (arg : Chars) (b : Bool) (o : PrintOptions)
    (h : ¬ requiresQuoting arg b o) :
    escapeArg arg b o = arg := by
  unfold requiresQuoting at h
  unfold escapeArg
  rw [if_neg h]

theorem any_special_iff (arg : Chars) (b : Bool) :
    (arg.any (fun c =>
      (if b then SPECIAL_SHELL_CHARACTERS_FOR_MAIN_COMMAND
       else SPECIAL_SHELL_CHARACTERS).contains c) = true)
    ↔ ∃ c ∈ arg, c ∈ SPECIAL_SHELL_CHARACTERS ∨ (b = true ∧ c = '=') := by
  cases b <;>
    simp [List.any_eq_true, SPECIAL_SHELL_CHARACTERS_FOR_MAIN_COMMAND]

theorem requiresQuoting_iff (arg : Chars) (b : Bool) (o : PrintOptions) :
    requiresQuoting arg b o
    ↔ (o.quoting = some EXTRA_SAFE
        ∨ ∃ c ∈ arg, c ∈ SPECIAL_SHELL_CHARACTERS ∨ (b = true ∧ c = '=')) := by
  unfold requiresQuoting
  rw [any_special_iff]

/-! Lemmas about flattening. -/

theorem jsFlat_eq_flattenSpec (args : List ArgsEntry) :
    jsFlat args = flattenSpec args := by
  induction args with
  | nil => rfl
  | cons e rest ih =>
    cases e <;> simp [jsFlat, flattenSpec, entryValues] at ih ⊢ <;> exact ih

/-! Claim theorems C2, C3, C4, C9, with witnesses. -/

/-- Claim C2: for every token that requires quoting, `escapeArg` returns
the token with every backslash replaced by two backslashes, then every
single quote replaced by backslash-quote, wrapped in outer single quotes;
equivalently (fusing the two passes), each backslash is doubled and each
single quote is preceded by a backslash inside the outer quotes. -/
theorem claim_C2_quoting_transform (arg : Chars) (b : Bool) (o : PrintOptions)
    (h : requiresQuoting arg b o) :
    escapeArg arg b o = [squote] ++ replaceAllQuotes (replaceAllBackslashes arg) ++ [squote]
    ∧ escapeArg arg b o = [squote] ++ arg.flatMap escChar ++ [squote] := by
  refine ⟨escapeArg_quoted arg b o h, ?_⟩
  rw [escapeArg_quoted arg b o h, replace_passes_fused]

/-- Witness for C2 at the token a-quote-b-backslash under default options:
it requires quoting, and its escape is explicitly quote, a, backslash,
quote, b, backslash, backslash, quote. -/
theorem claim_C2_quoting_transform_witness :
    requiresQuoting ['a', squote, 'b', bslash] false defaultOptions
    ∧ escapeArg ['a', squote, 'b', bslash] false defaultOptions
        = [squote] ++ ['a', squote, 'b', bslash].flatMap escChar ++ [squote]
    ∧ escapeArg ['a', squote, 'b', bslash] false defaultOptions
        = [squote, 'a', bslash, squote, 'b', bslash, bslash, squote] :=
  ⟨by decide,
   (claim_C2_quoting_transform ['a', squote, 'b', bslash] false defaultOptions (by decide)).2,
   by decide⟩

/-- Claim C3: `escapeArg` single-quotes a token exactly when the quoting
option is "extra-safe" or some character of the token lies in the special
set (with the equals sign counted as special only for the command name,
i.e. when `isMainCommand` is true); under auto quoting, a token with no
special character is emitted unchanged. -/
theorem claim_C3_quoting_necessity (arg : Chars) (b : Bool) (o : PrintOptions) :
    ((o.quoting = some EXTRA_SAFE
        ∨ ∃ c ∈ arg, c ∈ SPECIAL_SHELL_CHARACTERS ∨ (b = true ∧ c = '=')) →
      escapeArg arg b o
        = [squote] ++ replaceAllQuotes (replaceAllBackslashes arg) ++ [squote])
    ∧ ((o.quoting ≠ some EXTRA_SAFE
        ∧ ∀ c ∈ arg, c ∉ SPECIAL_SHELL_CHARACTERS ∧ ¬(b = true ∧ c = '=')) →
      escapeArg arg b o = arg) := by
  constructor
  · intro h
    exact escapeArg_quoted arg b o ((requiresQuoting_iff arg b o).mpr h)
  · rintro ⟨hq, hs⟩
    refine escapeArg_unquoted arg b o ?_
    rw [requiresQuoting_iff]
    rintro (h | ⟨c, hc, hmem⟩)
    · exact hq h
    · rcases hmem with hmem | hmem
      · exact (hs c hc).1 hmem
      · exact (hs c hc).2 hmem

/-- Witness for C3: the token "a b" (contains a space) is quoted under
default options, and the token "ab" is emitted unchanged; moreover the
command name "A=b" is quoted (equals sign special for the command name)
while the same string is unchanged as an ordinary argument. -/
theorem claim_C3_quoting_necessity_witness :
    (escapeArg "a b".toList false defaultOptions
      = [squote] ++ replaceAllQuotes (replaceAllBackslashes "a b".toList) ++ [squote])
    ∧ escapeArg "ab".toList false defaultOptions = "ab".toList
    ∧ escapeArg "A=b".toList true defaultOptions
        = [squote] ++ replaceAllQuotes (replaceAllBackslashes "A=b".toList) ++ [squote]
    ∧ escapeArg "A=b".toList false defaultOptions = "A=b".toList :=
  ⟨(claim_C3_quoting_necessity "a b".toList false defaultOptions).1 (by decide),
   (claim_C3_quoting_necessity "ab".toList false defaultOptions).2 (by decide),
   (claim_C3_quoting_necessity "A=b".toList true defaultOptions).1 (by decide),
   (claim_C3_quoting_necessity "A=b".toList false defaultOptions).2 (by decide)⟩

/-- Claim C4: `toCommandWithFlatArgs` pairs the command name with the
concatenation, in construction order, of each entry's values (the command
name itself is not part of the tail, and the equality to the order- and
multiplicity-preserving `flattenSpec` shows nothing is reordered or
deduplicated), and `spawn` hands exactly this pair to the process-spawn
facility. -/
theorem claim_C4_flatten (c : Command) :
    toCommandWithFlatArgs c = (c.commandName, flattenSpec c.args)
    ∧ spawnArgv c = toCommandWithFlatArgs c := by
  refine ⟨?_, rfl⟩
  unfold toCommandWithFlatArgs
  rw [jsFlat_eq_flattenSpec]

/-- Claim C9: flattening is pure (two calls are the same value; rendering
is likewise a pure function of the command and options, so interleaved
`getPrintableCommand` calls cannot affect it), and any two commands with
the same name whose entries flatten to the same token sequence have equal
`toCommandWithFlatArgs` results — grouping affects only layout. -/
theorem claim_C9_pure_flattening (c1 c2 : Command)
    (hn : c1.commandName = c2.commandName)
    (hf : flattenSpec c1.args = flattenSpec c2.args) :
    toCommandWithFlatArgs c1 = toCommandWithFlatArgs c1
    ∧ toCommandWithFlatArgs c1 = toCommandWithFlatArgs c2 := by
  refine ⟨rfl, ?_⟩
  rw [(claim_C4_flatten c1).1, (claim_C4_flatten c2).1, hn, hf]

/-! Lemmas about the constructor's validation loop. -/

theorem validateArgs_ok (args : List JSVal) (h : ∀ v ∈ args, validEntry v = true) :
    ∀ i, validateArgs args i = .ok (args.map toEntry) := by
  induction args with
  | nil => intro i; rfl
  | cons e rest ih =>
    intro i
    have he : validEntry e = true := h e (List.mem_cons_self e rest)
    have hrest : ∀ v ∈ rest, validEntry v = true :=
      fun v hv => h v (List.mem_cons_of_mem e hv)
    cases e with
    | str s =>
      unfold validateArgs
      simp [isStringVal, ih hrest (i + 1), toEntry, scalarChars, Except.map]
    | path s =>
      unfold validateArgs
      simp [isStringVal, isPathVal, ih hrest (i + 1), toEntry, scalarChars, Except.map]
    | arr elems =>
      have hv : isValidArgsEntryArray elems = true := by
        simpa [validEntry] using he
      unfold validateArgs
      simp [isStringVal, isPathVal, hv, ih hrest (i + 1), toEntry, Except.map]
    | other =>
      simp [validEntry] at he

theorem validateArgs_err (pre : List JSVal) (bad : JSVal) (rest : List JSVal)
    (hpre : ∀ v ∈ pre, validEntry v = true) (hbad : validEntry bad = false) :
    ∀ i, validateArgs (pre ++ bad :: rest) i = .error (.invalidArgEntry (i + pre.length)) := by
  induction pre with
  | nil =>
    intro i
    cases bad with
    | str s => simp [validEntry] at hbad
    | path s => simp [validEntry] at hbad
    | arr elems =>
      have hv : isValidArgsEntryArray elems = false := by
        simpa [validEntry] using hbad
      unfold validateArgs
      simp [isStringVal, isPathVal, hv]
    | other =>
      unfold validateArgs
      simp [isStringVal, isPathVal]
  | cons e pre ih =>
    intro i
    have he : validEntry e = true := hpre e (List.mem_cons_self e pre)
    have hpre2 : ∀ v ∈ pre, validEntry v = true :=
      fun v hv => hpre v (List.mem_cons_of_mem e hv)
    have harith : i + 1 + pre.length = i + (e :: pre).length := by
      simp [List.length_cons]
      omega
    cases e with
    | str s =>
      unfold validateArgs
      simp [isStringVal, ih hpre2 (i + 1), harith, Except.map, scalarChars]
    | path s =>
      unfold validateArgs
      simp [isStringVal, isPathVal, ih hpre2 (i + 1), harith, Except.map, scalarChars]
    | arr elems =>
      have hv : isValidArgsEntryArray elems = true := by
        simpa [validEntry] using he
      unfold validateArgs
      simp [isStringVal, isPathVal, hv, ih hpre2 (i + 1), harith, Except.map]
    | other =>
      simp [validEntry] at he

/-- Claim C5 (amended): the constructor accepts any args whose entries are
strings, `Path`s, or arrays of strings/`Path`s — with no lower bound on
array length, so a one-member group is accepted and produces a Command
containing that group — and throws `Invalid arg entry at index: i` exactly
when the entry at `i` is the first one that is neither a scalar nor an
array of scalars. -/
theorem claim_C5_construction (name : Chars) (args : List JSVal)
    (pre : List JSVal) (bad : JSVal) (rest : List JSVal) (s : Chars)
    (hok : ∀ v ∈ args, validEntry v = true)
    (hpre : ∀ v ∈ pre, validEntry v = true) (hbad : validEntry bad = false) :
    construct (.str name) args = .ok ⟨name, args.map toEntry⟩
    ∧ construct (.str name) (pre ++ bad :: rest) = .error (.invalidArgEntry pre.length)
    ∧ construct (.str name) [.arr [.str s]] = .ok ⟨name, [.group [s]]⟩ := by
  refine ⟨?_, ?_, ?_⟩
  · unfold construct
    simp [isStringVal, validateArgs_ok args hok 0, scalarChars, Except.map]
  · unfold construct
    have := validateArgs_err pre bad rest hpre hbad 0
    simp [isStringVal, this, scalarChars, Except.map]
  · unfold construct
    have hone : ∀ v ∈ [JSVal.arr [JSVal.str s]], validEntry v = true := by
      intro v hv
      simp at hv
      subst hv
      simp [validEntry, isValidArgsEntryArray, isStringVal]
    simp [isStringVal, validateArgs_ok _ hone 0, toEntry, scalarChars, Except.map]

/-- Witness for C5 (amended): a command with a valid scalar and a
one-member group is accepted, and an invalid entry (a number-like
non-scalar) at index 1 is rejected with that index. -/
theorem claim_C5_construction_witness :
    construct (.str "echo".toList) [.str "x".toList, .arr [.str "a".toList]]
      = .ok ⟨"echo".toList, [.scalar "x".toList, .group ["a".toList]]⟩
    ∧ construct (.str "echo".toList) [.str "x".toList, .other]
      = .error (.invalidArgEntry 1)
    ∧ construct (.str "echo".toList) [.arr [.str "a".toList]]
      = .ok ⟨"echo".toList, [.group ["a".toList]]⟩ :=
  ⟨(claim_C5_construction "echo".toList [.str "x".toList, .arr [.str "a".toList]]
      [.str "x".toList] .other [] "a".toList
      (by decide) (by decide) (by decide)).1,
   (claim_C5_construction "echo".toList [.str "x".toList, .arr [.str "a".toList]]
      [.str "x".toList] .other [] "a".toList
      (by decide) (by decide) (by decide)).2.1,
   (claim_C5_construction "echo".toList [.str "x".toList, .arr [.str "a".toList]]
      [.str "x".toList] .other [] "a".toList
      (by decide) (by decide) (by decide)).2.2⟩

/-- Counterexample to C5 as stated: a group entry with exactly one member
is NOT rejected — construction succeeds and produces a Command holding the
one-member group. -/
theorem claim_C5_counterexample :
    construct (.str "echo".toList) [.arr [.str "a".toList]]
      = .ok ⟨"echo".toList, [.group ["a".toList]]⟩ := rfl

/-! Per-mode evaluation lemmas for the separator helpers. -/

theorem argPair_byEntry (o : PrintOptions)
    (h : o.argumentLineWrapping = none ∨ o.argumentLineWrapping = some "by-entry".toList) :
    argPairSeparator o = .ok INLINE_SEPARATOR := by
  unfold argPairSeparator
  rcases h with h | h <;> rw [h] <;> rfl

theorem argPair_nested (o : PrintOptions)
    (h : o.argumentLineWrapping = some "nested-by-entry".toList) :
    argPairSeparator o = .ok (lineWrapSeparator o ++ argIndentation o) := by
  unfold argPairSeparator
  rw [h]
  rfl

theorem argPair_byArgument (o : PrintOptions)
    (h : o.argumentLineWrapping = some "by-argument".toList) :
    argPairSeparator o = .ok (lineWrapSeparator o) := by
  unfold argPairSeparator
  rw [h]
  rfl

theorem argPair_inline (o : PrintOptions)
    (h : o.argumentLineWrapping = some "inline".toList) :
    argPairSeparator o = .ok INLINE_SEPARATOR := by
  unfold argPairSeparator
  rw [h]
  rfl

theorem intra_wrapped (o : PrintOptions)
    (h : o.argumentLineWrapping = none ∨ o.argumentLineWrapping = some "by-entry".toList
      ∨ o.argumentLineWrapping = some "nested-by-entry".toList
      ∨ o.argumentLineWrapping = some "by-argument".toList) :
    intraEntrySeparator o = .ok (LINE_WRAP_LINE_END ++ argIndentation o) := by
  unfold intraEntrySeparator
  rcases h with h | h | h | h <;> rw [h] <;> rfl

theorem intra_inline (o : PrintOptions)
    (h : o.argumentLineWrapping = some "inline".toList) :
    intraEntrySeparator o = .ok INLINE_SEPARATOR := by
  unfold intraEntrySeparator
  rw [h]
  rfl

theorem argPair_invalid (o : PrintOptions) (w : Chars)
    (hw : o.argumentLineWrapping = some w)
    (h1 : w ≠ "by-entry".toList) (h2 : w ≠ "nested-by-entry".toList)
    (h3 : w ≠ "by-argument".toList) (h4 : w ≠ "inline".toList) :
    argPairSeparator o = .error .invalidArgumentLineWrapping := by
  unfold argPairSeparator
  rw [hw]
  simp only [Option.getD_some]
  rw [if_neg h1, if_neg h2, if_neg h3, if_neg h4]

theorem intra_invalid (o : PrintOptions) (w : Chars)
    (hw : o.argumentLineWrapping = some w)
    (h1 : w ≠ "by-entry".toList) (h2 : w ≠ "nested-by-entry".toList)
    (h3 : w ≠ "by-argument".toList) (h4 : w ≠ "inline".toList) :
    intraEntrySeparator o = .error .invalidArgumentLineWrapping := by
  unfold intraEntrySeparator
  rw [hw]
  simp only [Option.getD_some]
  rw [if_neg ?hdisj, if_neg h4]
  case hdisj =>
    rintro (h | h | h)
    exacts [h1 h, h2 h, h3 h]

/-- Claim C6: an `argumentLineWrapping` value outside the four recognized
strings makes `getPrintableCommand` throw the "Invalid argument line
wrapping argument." error (for every command — the separator expression is
evaluated even when there are no entries), never silently defaulting. -/
theorem claim_C6_invalid_wrapping (c : Command) (o : PrintOptions) (w : Chars)
    (hw : o.argumentLineWrapping = some w) (hbad : ¬ ValidWrap (some w)) :
    getPrintableCommand c o = .error .invalidArgumentLineWrapping := by
  unfold ValidWrap at hbad
  push_neg at hbad
  obtain ⟨-, h1, h2, h3, h4⟩ := hbad
  simp only [ne_eq, Option.some.injEq] at h1 h2 h3 h4
  have hintra := intra_invalid o w hw h1 h2 h3 h4
  unfold getPrintableCommand
  cases hse : serializeEntries o c.args with
  | error e => cases e; rfl
  | ok l =>
    cases hsa : separatorAfterCommand o l.length with
    | error e =>
      cases e
      simp [hsa]
    | ok sA => simp [hsa, hintra]

/-- Witness for C6: the wrapping value "bogus" makes rendering of the echo
command throw. -/
theorem claim_C6_invalid_wrapping_witness :
    ({ argumentLineWrapping := some "bogus".toList } : PrintOptions).argumentLineWrapping
        = some "bogus".toList
    ∧ ¬ ValidWrap (some "bogus".toList)
    ∧ getPrintableCommand ⟨"echo".toList, [.scalar "hi".toList]⟩
        { argumentLineWrapping := some "bogus".toList }
        = .error .invalidArgumentLineWrapping :=
  ⟨rfl, by decide,
   claim_C6_invalid_wrapping ⟨"echo".toList, [.scalar "hi".toList]⟩
     { argumentLineWrapping := some "bogus".toList } "bogus".toList rfl (by decide)⟩

/-- Claim C7: the layout table.  With `argIndent` equal to the resolved
main indentation followed by the resolved per-argument indentation, and
the line-wrap token equal to space-backslash-newline followed by
`argIndent`: the within-group separator is a single space under "by-entry"
(the default) and "inline", the line-wrap token plus one extra `argIndent`
under "nested-by-entry", and the line-wrap token under "by-argument"; the
between-entries separator is the line-wrap token under the three wrapped
modes and a single space under "inline". -/
theorem claim_C7_separator_table (o : PrintOptions) :
    (argIndentation o = mainIndentation o ++ o.argIndentation.getD [' ', ' ']
      ∧ lineWrapSeparator o = [' ', bslash, nlChar] ++ argIndentation o)
    ∧ ((o.argumentLineWrapping = none ∨ o.argumentLineWrapping = some "by-entry".toList) →
        argPairSeparator o = .ok [' ']
          ∧ intraEntrySeparator o = .ok (lineWrapSeparator o))
    ∧ (o.argumentLineWrapping = some "nested-by-entry".toList →
        argPairSeparator o = .ok (lineWrapSeparator o ++ argIndentation o)
          ∧ intraEntrySeparator o = .ok (lineWrapSeparator o))
    ∧ (o.argumentLineWrapping = some "by-argument".toList →
        argPairSeparator o = .ok (lineWrapSeparator o)
          ∧ intraEntrySeparator o = .ok (lineWrapSeparator o))
    ∧ (o.argumentLineWrapping = some "inline".toList →
        argPairSeparator o = .ok [' '] ∧ intraEntrySeparator o = .ok [' ']) := by
  refine ⟨⟨rfl, rfl⟩, ?_, ?_, ?_, ?_⟩
  · intro h
    exact ⟨argPair_byEntry o h, intra_wrapped o (by tauto)⟩
  · intro h
    exact ⟨argPair_nested o h, intra_wrapped o (by tauto)⟩
  · intro h
    exact ⟨argPair_byArgument o h, intra_wrapped o (by tauto)⟩
  · intro h
    exact ⟨argPair_inline o h, intra_inline o h⟩

/-- Witness for C7 at concrete options with mainIndentation ">" and
argIndentation "__" under the "nested-by-entry" mode. -/
theorem claim_C7_separator_table_witness :
    argPairSeparator
        { mainIndentation := some ">".toList, argIndentation := some "__".toList,
          argumentLineWrapping := some "nested-by-entry".toList }
      = .ok ([' ', bslash, nlChar] ++ ">__".toList ++ ">__".toList)
    ∧ intraEntrySeparator
        { mainIndentation := some ">".toList, argIndentation := some "__".toList,
          argumentLineWrapping := some "nested-by-entry".toList }
      = .ok ([' ', bslash, nlChar] ++ ">__".toList) := by
  have h := (claim_C7_separator_table
    { mainIndentation := some ">".toList, argIndentation := some "__".toList,
      argumentLineWrapping := some "nested-by-entry".toList }).2.2.1 rfl
  exact ⟨by rw [h.1]; rfl, by rw [h.2]; rfl⟩

/-- Claim C10: the empty token is emitted as the empty string under auto
quoting (its character set intersects nothing) and as two adjacent single
quotes under "extra-safe"; a command with an empty scalar argument keeps
that argument in the flat argv while contributing no visible token to the
default rendering. -/
theorem claim_C10_empty_token (o : PrintOptions) :
    (o.quoting ≠ some EXTRA_SAFE → escapeArg [] false o = [])
    ∧ (o.quoting = some EXTRA_SAFE → escapeArg [] false o = [squote, squote])
    ∧ (toCommandWithFlatArgs emptyArgCmd).2 = [[]]
    ∧ getPrintableCommand emptyArgCmd defaultOptions
        = .ok ("echo".toList ++ [' ', bslash, nlChar] ++ [' ', ' '])
    ∧ getPrintableCommand emptyArgCmd { quoting := some EXTRA_SAFE }
        = .ok ([squote] ++ "echo".toList ++ [squote] ++ [' ', bslash, nlChar]
            ++ [' ', ' '] ++ [squote, squote]) := by
  refine ⟨?_, ?_, rfl, rfl, rfl⟩
  · intro h
    refine escapeArg_unquoted [] false o ?_
    rw [requiresQuoting_iff]
    rintro (hq | ⟨c, hc, -⟩)
    · exact h hq
    · simp at hc
  · intro h
    rw [escapeArg_quoted [] false o ((requiresQuoting_iff [] false o).mpr (Or.inl h))]
    rfl

/-- Witness for C10 at the default options and at extra-safe options. -/
theorem claim_C10_empty_token_witness :
    (defaultOptions.quoting ≠ some EXTRA_SAFE ∧ escapeArg [] false defaultOptions = [])
    ∧ (({ quoting := some EXTRA_SAFE } : PrintOptions).quoting = some EXTRA_SAFE
        ∧ escapeArg [] false { quoting := some EXTRA_SAFE } = [squote, squote]) :=
  ⟨⟨by decide, (claim_C10_empty_token defaultOptions).1 (by decide)⟩,
   ⟨rfl, (claim_C10_empty_token { quoting := some EXTRA_SAFE }).2.1 rfl⟩⟩

/-! Run lemmas: evaluating `getPrintableCommand` when the wrapping value is
recognized. -/

theorem serializeEntries_ok (o : PrintOptions) (ps : Chars)
    (hps : argPairSeparator o = .ok ps) :
    ∀ args, serializeEntries o args = .ok (args.map (renderEntry o ps)) := by
  intro args
  induction args with
  | nil => rfl
  | cons e rest ih =>
    unfold serializeEntries
    cases e with
    | scalar s => simp [serializeEntry, renderEntry, ih]
    | group xs => simp [serializeEntry, hps, renderEntry, ih]

theorem getPrintableCommand_ok (c : Command) (o : PrintOptions) (ps is sA : Chars)
    (hps : argPairSeparator o = .ok ps) (his : intraEntrySeparator o = .ok is)
    (hsa : separatorAfterCommand o c.args.length = .ok sA) :
    getPrintableCommand c o
      = .ok (mainIndentation o ++ escapeArg c.commandName true o ++ sA
          ++ jsJoin is (c.args.map (renderEntry o ps))) := by
  unfold getPrintableCommand
  rw [serializeEntries_ok o ps hps c.args]
  simp [hsa, his]

theorem sepAfter_zero (o : PrintOptions) : separatorAfterCommand o 0 = .ok [] := rfl

theorem sepAfter_skip (o : PrintOptions) (n : Nat) (hn : n ≠ 0)
    (hskip : o.skipLineWrapBeforeFirstArg = some true) :
    separatorAfterCommand o n = .ok [' '] := by
  unfold separatorAfterCommand
  rw [if_neg hn, hskip]
  rfl

theorem sepAfter_noskip (o : PrintOptions) (n : Nat) (hn : n ≠ 0)
    (hskip : o.skipLineWrapBeforeFirstArg = none ∨ o.skipLineWrapBeforeFirstArg = some false) :
    separatorAfterCommand o n = intraEntrySeparator o := by
  unfold separatorAfterCommand
  rw [if_neg hn]
  rcases hskip with h | h <;> rw [h] <;> rfl

/-! Membership of tokens in the flat argv. -/

theorem scalar_mem_jsFlat (s : Chars) :
    ∀ args, ArgsEntry.scalar s ∈ args → s ∈ jsFlat args := by
  intro args
  induction args with
  | nil => intro h; simp at h
  | cons e rest ih =>
    intro h
    rcases List.mem_cons.mp h with heq | hmem
    · subst heq
      simp [jsFlat]
    · cases e with
      | scalar s1 =>
        simp only [jsFlat, List.mem_cons]
        exact Or.inr (ih hmem)
      | group xs =>
        simp only [jsFlat, List.mem_append]
        exact Or.inr (ih hmem)

theorem group_mem_jsFlat (xs : List Chars) (t : Chars) (ht : t ∈ xs) :
    ∀ args, ArgsEntry.group xs ∈ args → t ∈ jsFlat args := by
  intro args
  induction args with
  | nil => intro h; simp at h
  | cons e rest ih =>
    intro h
    rcases List.mem_cons.mp h with heq | hmem
    · subst heq
      simp only [jsFlat, List.mem_append]
      exact Or.inl ht
    · cases e with
      | scalar s1 =>
        simp only [jsFlat, List.mem_cons]
        exact Or.inr (ih hmem)
      | group ys =>
        simp only [jsFlat, List.mem_append]
        exact Or.inr (ih hmem)

/-! Last-character lemmas. -/

theorem escapeArg_ne_nil (arg : Chars) (b : Bool) (o : PrintOptions) (hne : arg ≠ []) :
    escapeArg arg b o ≠ [] := by
  by_cases h : requiresQuoting arg b o
  · rw [escapeArg_quoted arg b o h]
    simp
  · rw [escapeArg_unquoted arg b o h]
    exact hne

theorem escapeArg_getLast_ne_nl (arg : Chars) (b : Bool) (o : PrintOptions)
    (hnl : arg.getLast? ≠ some nlChar) :
    (escapeArg arg b o).getLast? ≠ some nlChar := by
  by_cases h : requiresQuoting arg b o
  · rw [escapeArg_quoted arg b o h]
    rw [List.getLast?_append_of_ne_nil _ (by simp : ([squote] : Chars) ≠ [])]
    intro hc
    simp at hc
    exact absurd hc (by decide)
  · rw [escapeArg_unquoted arg b o h]
    exact hnl

theorem getLast?_map_eq {f : Chars → Chars} :
    ∀ (l : List Chars) (e : Chars), l.getLast? = some e → (l.map f).getLast? = some (f e) := by
  intro l
  induction l with
  | nil => intro e he; simp at he
  | cons a t ih =>
    intro e he
    cases t with
    | nil =>
      simp at he
      subst he
      rfl
    | cons b t2 =>
      rw [List.getLast?_cons_cons] at he
      have := ih e he
      simpa [List.getLast?_cons_cons] using this

theorem getLast?_mem : ∀ (l : List Chars) (e : Chars), l.getLast? = some e → e ∈ l := by
  intro l
  induction l with
  | nil => intro e he; simp at he
  | cons a t ih =>
    intro e he
    cases t with
    | nil =>
      simp at he
      subst he
      simp
    | cons b t2 =>
      rw [List.getLast?_cons_cons] at he
      exact List.mem_cons_of_mem a (ih e he)

theorem jsJoin_getLast (sep : Chars) :
    ∀ (l : List Chars) (x : Chars), l.getLast? = some x → x ≠ [] →
      jsJoin sep l ≠ [] ∧ (jsJoin sep l).getLast? = x.getLast? := by
  intro l
  induction l with
  | nil => intro x hx; simp at hx
  | cons a t ih =>
    intro x hx hxne
    cases t with
    | nil =>
      simp at hx
      subst hx
      exact ⟨hxne, rfl⟩
    | cons b t2 =>
      rw [List.getLast?_cons_cons] at hx
      obtain ⟨hne, hlast⟩ := ih x hx hxne
      have hj : jsJoin sep (a :: b :: t2) = a ++ sep ++ jsJoin sep (b :: t2) := rfl
      constructor
      · rw [hj]
        simp [hne]
      · rw [hj, List.getLast?_append_of_ne_nil _ hne, hlast]

theorem renderEntry_last (o : PrintOptions) (ps : Chars) (e : ArgsEntry)
    (hsize : GroupSizeOK e)
    (htoks : ∀ t ∈ entryValues e, t ≠ [] ∧ t.getLast? ≠ some nlChar) :
    renderEntry o ps e ≠ [] ∧ (renderEntry o ps e).getLast? ≠ some nlChar := by
  cases e with
  | scalar s =>
    have hs := htoks s (by simp [entryValues])
    exact ⟨escapeArg_ne_nil s false o hs.1, escapeArg_getLast_ne_nl s false o hs.2⟩
  | group xs =>
    have hxs : xs ≠ [] := by
      intro hnil
      rw [hnil] at hsize
      simp [GroupSizeOK] at hsize
    have hx : xs.getLast? = some (xs.getLast hxs) :=
      List.getLast?_eq_getLast_of_ne_nil hxs
    have hmem : xs.getLast hxs ∈ xs := getLast?_mem xs _ hx
    have ht := htoks (xs.getLast hxs) (by simp only [entryValues]; exact hmem)
    have hmap : (xs.map (fun part => escapeArg part false o)).getLast?
        = some (escapeArg (xs.getLast hxs) false o) :=
      getLast?_map_eq xs _ hx
    have hj := jsJoin_getLast ps (xs.map (fun part => escapeArg part false o))
      (escapeArg (xs.getLast hxs) false o) hmap
      (escapeArg_ne_nil _ false o ht.1)
    refine ⟨hj.1, ?_⟩
    rw [show renderEntry o ps (.group xs)
        = jsJoin ps (xs.map (fun part => escapeArg part false o)) from rfl, hj.2]
    exact escapeArg_getLast_ne_nl _ false o ht.2

/-- Claim C8 (amended): for every valid Command and recognized wrapping
value, provided every flat token is nonempty and neither the command name
nor any flat token ends with a newline character, the string returned by
`getPrintableCommand` is nonempty and never ends with a newline character.
Unrestricted, the claim is false: a token ending in a newline is emitted
verbatim under auto quoting (newline is not special), so the rendered
string ends with that newline. -/
theorem claim_C8_no_trailing_newline (c : Command) (o : PrintOptions)
    (hval : ValidCommand c)
    (hwrap : ValidWrap o.argumentLineWrapping)
    (hname : c.commandName.getLast? ≠ some nlChar)
    (htoks : ∀ t ∈ jsFlat c.args, t ≠ [] ∧ t.getLast? ≠ some nlChar) :
    ∃ s, getPrintableCommand c o = .ok s ∧ s ≠ [] ∧ s.getLast? ≠ some nlChar := by
  have hescname : escapeArg c.commandName true o ≠ [] :=
    escapeArg_ne_nil _ true o hval.1
  have hescname2 : (escapeArg c.commandName true o).getLast? ≠ some nlChar :=
    escapeArg_getLast_ne_nl _ true o hname
  obtain ⟨ps, hps⟩ : ∃ ps, argPairSeparator o = .ok ps := by
    rcases hwrap with h | h | h | h | h
    · exact ⟨_, argPair_byEntry o (Or.inl h)⟩
    · exact ⟨_, argPair_byEntry o (Or.inr h)⟩
    · exact ⟨_, argPair_nested o h⟩
    · exact ⟨_, argPair_byArgument o h⟩
    · exact ⟨_, argPair_inline o h⟩
  obtain ⟨is, his⟩ : ∃ is, intraEntrySeparator o = .ok is := by
    rcases hwrap with h | h | h | h | h
    · exact ⟨_, intra_wrapped o (Or.inl h)⟩
    · exact ⟨_, intra_wrapped o (Or.inr (Or.inl h))⟩
    · exact ⟨_, intra_wrapped o (Or.inr (Or.inr (Or.inl h)))⟩
    · exact ⟨_, intra_wrapped o (Or.inr (Or.inr (Or.inr h)))⟩
    · exact ⟨_, intra_inline o h⟩
  by_cases hargs : c.args = []
  · have h0 : separatorAfterCommand o c.args.length = .ok [] := by
      rw [hargs]
      exact sepAfter_zero o
    refine ⟨_, getPrintableCommand_ok c o ps is [] hps his h0, ?_, ?_⟩
    · rw [hargs]
      simp [jsJoin, hescname]
    · rw [hargs]
      show (mainIndentation o ++ escapeArg c.commandName true o ++ []
        ++ jsJoin is (List.map (renderEntry o ps) [])).getLast? ≠ some nlChar
      rw [show jsJoin is (List.map (renderEntry o ps) []) = [] from rfl]
      rw [List.append_nil, List.append_nil]
      rw [List.getLast?_append_of_ne_nil _ hescname]
      exact hescname2
  · have hn : c.args.length ≠ 0 := by
      simpa [List.length_eq_zero] using hargs
    obtain ⟨sA, hsa⟩ : ∃ sA, separatorAfterCommand o c.args.length = .ok sA := by
      cases hsk : o.skipLineWrapBeforeFirstArg with
      | none => exact ⟨is, by rw [sepAfter_noskip o _ hn (Or.inl hsk)]; exact his⟩
      | some b =>
        cases b with
        | true => exact ⟨[' '], sepAfter_skip o _ hn hsk⟩
        | false => exact ⟨is, by rw [sepAfter_noskip o _ hn (Or.inr hsk)]; exact his⟩
    have he : c.args.getLast? = some (c.args.getLast hargs) :=
      List.getLast?_eq_getLast_of_ne_nil hargs
    have hemem : c.args.getLast hargs ∈ c.args := by
      have : ∀ (l : List ArgsEntry) (e : ArgsEntry), l.getLast? = some e → e ∈ l := by
        intro l
        induction l with
        | nil => intro e h2; simp at h2
        | cons a t ih =>
          intro e h2
          cases t with
          | nil =>
            simp at h2
            subst h2
            simp
          | cons b t2 =>
            rw [List.getLast?_cons_cons] at h2
            exact List.mem_cons_of_mem a (ih e h2)
      exact this c.args _ he
    have hetoks : ∀ t ∈ entryValues (c.args.getLast hargs),
        t ≠ [] ∧ t.getLast? ≠ some nlChar := by
      intro t ht
      cases hcase : c.args.getLast hargs with
      | scalar s =>
        rw [hcase] at ht
        simp [entryValues] at ht
        subst ht
        exact htoks t (scalar_mem_jsFlat t c.args (hcase ▸ hemem))
      | group xs =>
        rw [hcase] at ht
        simp [entryValues] at ht
        exact htoks t (group_mem_jsFlat xs t ht c.args (hcase ▸ hemem))
    have hre := renderEntry_last o ps (c.args.getLast hargs)
      (hval.2 _ hemem) hetoks
    have hmapL : (c.args.map (renderEntry o ps)).getLast?
        = some (renderEntry o ps (c.args.getLast hargs)) := by
      have : ∀ (l : List ArgsEntry) (e : ArgsEntry), l.getLast? = some e →
          (l.map (renderEntry o ps)).getLast? = some (renderEntry o ps e) := by
        intro l
        induction l with
        | nil => intro e h2; simp at h2
        | cons a t ih =>
          intro e h2
          cases t with
          | nil =>
            simp at h2
            subst h2
            rfl
          | cons b t2 =>
            rw [List.getLast?_cons_cons] at h2
            have := ih e h2
            simpa [List.getLast?_cons_cons] using this
      exact this c.args _ he
    have hj := jsJoin_getLast is (c.args.map (renderEntry o ps))
      (renderEntry o ps (c.args.getLast hargs)) hmapL hre.1
    refine ⟨_, getPrintableCommand_ok c o ps is sA hps his hsa, ?_, ?_⟩
    · simp [hj.1]
    · rw [List.getLast?_append_of_ne_nil _ hj.1, hj.2]
      exact hre.2

/-- Witness for C8 (amended) at the rsync example under default options. -/
theorem claim_C8_no_trailing_newline_witness :
    ValidCommand rsyncCommand
    ∧ ValidWrap defaultOptions.argumentLineWrapping
    ∧ (∃ s, getPrintableCommand rsyncCommand defaultOptions = .ok s
        ∧ s ≠ [] ∧ s.getLast? ≠ some nlChar) :=
  ⟨by decide, by decide,
   claim_C8_no_trailing_newline rsyncCommand defaultOptions
     (by decide) (by decide) (by decide) (by decide)⟩

/-- Counterexample to C8 as stated: the command `echo` with the single
argument a-newline renders, under default options, to a string whose last
character is a newline. -/
theorem claim_C8_counterexample :
    getPrintableCommand cexNewlineCmd defaultOptions
      = .ok ("echo ".toList ++ [bslash, nlChar] ++ "  ".toList ++ ['a', nlChar])
    ∧ ("echo ".toList ++ [bslash, nlChar] ++ "  ".toList
        ++ ['a', nlChar]).getLast? = some nlChar := by
  constructor
  · rfl
  · rfl

/-- Witness for C9: the rsync example and its regrouped variant flatten to
the same argv while rendering differently under default options. -/
theorem claim_C9_pure_flattening_witness :
    rsyncCommand.commandName = rsyncRegrouped.commandName
    ∧ flattenSpec rsyncCommand.args = flattenSpec rsyncRegrouped.args
    ∧ toCommandWithFlatArgs rsyncCommand = toCommandWithFlatArgs rsyncRegrouped
    ∧ (getPrintableCommand rsyncCommand defaultOptions).toOption
        ≠ (getPrintableCommand rsyncRegrouped defaultOptions).toOption :=
  ⟨rfl, by decide,
   (claim_C9_pure_flattening rsyncCommand rsyncRegrouped rfl (by decide)).2,
   by decide⟩

/-! Round-trip machinery: running the POSIX recognizer over rendered
output. -/

theorem flatMap_escChar_id (t : Chars)
    (h : ∀ c ∈ t, c ≠ bslash ∧ c ≠ squote) : t.flatMap escChar = t := by
  induction t with
  | nil => rfl
  | cons c t ih =>
    have hc := h c (List.mem_cons_self c t)
    rw [List.flatMap_cons, ih (fun d hd => h d (List.mem_cons_of_mem c hd))]
    simp [escChar, hc.1, hc.2]

theorem not_special_wordish (c : Char)
    (h1 : c ∉ SPECIAL_SHELL_CHARACTERS) (h2 : c ≠ tabChar) (h3 : c ≠ nlChar) :
    Wordish c := by
  refine ⟨?_, ?_, h2, ?_, h3, ?_, ?_, ?_⟩ <;>
    (intro heq; subst heq; exact h1 (by decide))

theorem breaker_space : Breaker [' '] := by
  intro r w acc
  show tokStep (' ' :: r) .normal (some w) acc = _
  rw [tokStep_space]
  rfl

theorem breaker_wrap : Breaker [' ', bslash, nlChar, ' ', ' '] := by
  intro r w acc
  show tokStep (' ' :: bslash :: nlChar :: ' ' :: ' ' :: r) .normal (some w) acc = _
  rw [tokStep_space, tokStep_bslash, tokStep_afterBackslash_nl,
    tokStep_space, tokStep_space]
  simp [flushWord]

theorem breaker_nested : Breaker [' ', bslash, nlChar, ' ', ' ', ' ', ' '] := by
  intro r w acc
  show tokStep (' ' :: bslash :: nlChar :: ' ' :: ' ' :: ' ' :: ' ' :: r)
    .normal (some w) acc = _
  rw [tokStep_space, tokStep_bslash, tokStep_afterBackslash_nl,
    tokStep_space, tokStep_space, tokStep_space, tokStep_space]
  simp [flushWord]

theorem tok_run_quoted_content (t : Chars) (hnq : ∀ c ∈ t, c ≠ squote) :
    ∀ r w acc, tokStep (t ++ squote :: r) .inQuote (some w) acc
      = tokStep r .normal (some (w ++ t)) acc := by
  induction t with
  | nil =>
    intro r w acc
    rw [List.nil_append, tokStep_inQuote_close]
    simp
  | cons c t ih =>
    intro r w acc
    have hc : c ≠ squote := hnq c (List.mem_cons_self c t)
    rw [List.cons_append, tokStep_inQuote_lit c hc]
    have := ih (fun d hd => hnq d (List.mem_cons_of_mem c hd)) r (w ++ [c]) acc
    simpa [pushChar, curChars] using this

theorem tok_run_word_some (t : Chars) (hw : ∀ c ∈ t, Wordish c) :
    ∀ r w acc, tokStep (t ++ r) .normal (some w) acc
      = tokStep r .normal (some (w ++ t)) acc := by
  induction t with
  | nil => intro r w acc; simp
  | cons c t ih =>
    intro r w acc
    rw [List.cons_append, tokStep_word c (hw c (List.mem_cons_self c t))]
    have := ih (fun d hd => hw d (List.mem_cons_of_mem c hd)) r (w ++ [c]) acc
    simpa [pushChar, curChars] using this

theorem tok_run_word_any (t : Chars) (hne : t ≠ []) (hw : ∀ c ∈ t, Wordish c) :
    ∀ r cur acc, tokStep (t ++ r) .normal cur acc
      = tokStep r .normal (some (curChars cur ++ t)) acc := by
  cases t with
  | nil => exact absurd rfl hne
  | cons c t =>
    intro r cur acc
    rw [List.cons_append, tokStep_word c (hw c (List.mem_cons_self c t))]
    have := tok_run_word_some t (fun d hd => hw d (List.mem_cons_of_mem c hd))
      r (curChars cur ++ [c]) acc
    simpa [pushChar, curChars] using this

theorem tok_run_escaped (t : Chars) (b : Bool) (o : PrintOptions) (hGood : GoodTok t) :
    ∀ r cur acc, tokStep (escapeArg t b o ++ r) .normal cur acc
      = tokStep r .normal (some (curChars cur ++ t)) acc := by
  obtain ⟨hne, hchars⟩ := hGood
  by_cases h : requiresQuoting t b o
  · have hesc : replaceAllQuotes (replaceAllBackslashes t) = t := by
      rw [replace_passes_fused]
      exact flatMap_escChar_id t (fun c hc => ⟨(hchars c hc).1, (hchars c hc).2.1⟩)
    rw [escapeArg_quoted t b o h, hesc]
    intro r cur acc
    have hshape : ([squote] ++ t ++ [squote]) ++ r = squote :: (t ++ squote :: r) := by
      simp
    rw [hshape, tokStep_quote_open]
    exact tok_run_quoted_content t (fun c hc => (hchars c hc).2.1) r (curChars cur) acc
  · rw [escapeArg_unquoted t b o h]
    intro r cur acc
    refine tok_run_word_any t hne ?_ r cur acc
    intro c hc
    rw [requiresQuoting_iff] at h
    push_neg at h
    exact not_special_wordish c (h.2 c hc).1 (hchars c hc).2.2.1 (hchars c hc).2.2.2

theorem tok_run_group (o : PrintOptions) (ps : Chars) (hbPs : Breaker ps) :
    ∀ (xs : List Chars), xs ≠ [] → (∀ t ∈ xs, GoodTok t) →
      ∀ (sep : Chars), Breaker sep → ∀ r acc,
        tokStep ((jsJoin ps (xs.map (fun part => escapeArg part false o)) ++ sep) ++ r)
          .normal none acc
        = tokStep r .normal none (acc ++ xs) := by
  intro xs
  induction xs with
  | nil => intro h; exact absurd rfl h
  | cons t xs ih =>
    intro _ hGood sep hbSep r acc
    cases xs with
    | nil =>
      have hj : jsJoin ps ((t :: []).map (fun part => escapeArg part false o))
          = escapeArg t false o := rfl
      rw [hj]
      have h1 := tok_run_escaped t false o (hGood t (List.mem_cons_self t []))
        (sep ++ r) none acc
      rw [List.append_assoc, h1]
      show tokStep (sep ++ r) .normal (some t) acc = _
      rw [hbSep r t acc]
    | cons t2 xs2 =>
      have hj : jsJoin ps ((t :: t2 :: xs2).map (fun part => escapeArg part false o))
          = escapeArg t false o ++ ps
            ++ jsJoin ps ((t2 :: xs2).map (fun part => escapeArg part false o)) := rfl
      rw [hj]
      have h1 := tok_run_escaped t false o (hGood t (List.mem_cons_self t (t2 :: xs2)))
        (ps ++ (jsJoin ps ((t2 :: xs2).map (fun part => escapeArg part false o)) ++ sep) ++ r)
        none acc
      have hassoc : (escapeArg t false o ++ ps
          ++ jsJoin ps ((t2 :: xs2).map (fun part => escapeArg part false o)) ++ sep) ++ r
          = escapeArg t false o
            ++ (ps ++ (jsJoin ps ((t2 :: xs2).map (fun part => escapeArg part false o)) ++ sep)
              ++ r) := by
        simp [List.append_assoc]
      rw [hassoc, h1]
      show tokStep (ps ++ (jsJoin ps ((t2 :: xs2).map (fun part => escapeArg part false o)) ++ sep) ++ r)
        .normal (some t) acc = _
      rw [show ps ++ (jsJoin ps ((t2 :: xs2).map (fun part => escapeArg part false o)) ++ sep) ++ r
          = ps ++ ((jsJoin ps ((t2 :: xs2).map (fun part => escapeArg part false o)) ++ sep) ++ r) by
        simp [List.append_assoc]]
      rw [hbPs ((jsJoin ps ((t2 :: xs2).map (fun part => escapeArg part false o)) ++ sep) ++ r) t acc]
      have h2 := ih (by simp) (fun u hu => hGood u (List.mem_cons_of_mem t hu)) sep hbSep r (acc ++ [t])
      rw [h2]
      simp

theorem tok_run_entry (o : PrintOptions) (ps : Chars) (hbPs : Breaker ps)
    (e : ArgsEntry) (hGood : GoodEntry e) (sep : Chars) (hbSep : Breaker sep) :
    ∀ r acc, tokStep ((renderEntry o ps e ++ sep) ++ r) .normal none acc
      = tokStep r .normal none (acc ++ entryValues e) := by
  cases e with
  | scalar t =>
    intro r acc
    have h1 := tok_run_escaped t false o hGood (sep ++ r) none acc
    show tokStep ((escapeArg t false o ++ sep) ++ r) .normal none acc = _
    rw [List.append_assoc, h1]
    show tokStep (sep ++ r) .normal (some t) acc = _
    rw [hbSep r t acc]
    rfl
  | group xs =>
    intro r acc
    obtain ⟨hlen, hGoodMem⟩ := hGood
    have hne : xs ≠ [] := by
      intro hnil
      rw [hnil] at hlen
      simp at hlen
    exact tok_run_group o ps hbPs xs hne hGoodMem sep hbSep r acc

theorem tok_run_entry_last (o : PrintOptions) (ps : Chars) (hbPs : Breaker ps)
    (e : ArgsEntry) (hGood : GoodEntry e) :
    ∀ acc, tokStep (renderEntry o ps e) .normal none acc
      = some (acc ++ entryValues e) := by
  cases e with
  | scalar t =>
    intro acc
    have h1 := tok_run_escaped t false o hGood [] none acc
    rw [List.append_nil] at h1
    show tokStep (escapeArg t false o) .normal none acc = _
    rw [h1, tokStep_nil_normal]
    rfl
  | group xs =>
    obtain ⟨hlen, hGoodMem⟩ := hGood
    have hne : xs ≠ [] := by
      intro hnil
      rw [hnil] at hlen
      simp at hlen
    clear hlen
    intro acc
    show tokStep (jsJoin ps (xs.map (fun part => escapeArg part false o))) .normal none acc
      = some (acc ++ xs)
    induction xs generalizing acc with
    | nil => exact absurd rfl hne
    | cons t xs2 ih =>
      cases xs2 with
      | nil =>
        have hj : jsJoin ps ((t :: []).map (fun part => escapeArg part false o))
            = escapeArg t false o := rfl
        rw [hj]
        have h1 := tok_run_escaped t false o (hGoodMem t (List.mem_cons_self t []))
          [] none acc
        rw [List.append_nil] at h1
        rw [h1, tokStep_nil_normal]
        rfl
      | cons t2 xs3 =>
        have hj : jsJoin ps ((t :: t2 :: xs3).map (fun part => escapeArg part false o))
            = escapeArg t false o ++ ps
              ++ jsJoin ps ((t2 :: xs3).map (fun part => escapeArg part false o)) := rfl
        rw [hj]
        have h1 := tok_run_escaped t false o (hGoodMem t (List.mem_cons_self t (t2 :: xs3)))
          (ps ++ jsJoin ps ((t2 :: xs3).map (fun part => escapeArg part false o))) none acc
        rw [show escapeArg t false o ++ ps
            ++ jsJoin ps ((t2 :: xs3).map (fun part => escapeArg part false o))
            = escapeArg t false o
              ++ (ps ++ jsJoin ps ((t2 :: xs3).map (fun part => escapeArg part false o))) by
          simp [List.append_assoc]]
        rw [h1]
        show tokStep (ps ++ jsJoin ps ((t2 :: xs3).map (fun part => escapeArg part false o)))
          .normal (some t) acc = _
        rw [hbPs (jsJoin ps ((t2 :: xs3).map (fun part => escapeArg part false o))) t acc]
        have h2 := ih (fun u hu => hGoodMem u (List.mem_cons_of_mem t hu)) (by simp) (acc ++ [t])
        rw [h2]
        simp

theorem tok_run_entries (o : PrintOptions) (ps is : Chars)
    (hbPs : Breaker ps) (hbIs : Breaker is) :
    ∀ (es : List ArgsEntry), es ≠ [] → (∀ e ∈ es, GoodEntry e) → ∀ acc,
      tokStep (jsJoin is (es.map (renderEntry o ps))) .normal none acc
        = some (acc ++ flattenSpec es) := by
  intro es
  induction es with
  | nil => intro h; exact absurd rfl h
  | cons e es2 ih =>
    intro _ hGood acc
    cases es2 with
    | nil =>
      have hj : jsJoin is ((e :: []).map (renderEntry o ps)) = renderEntry o ps e := rfl
      rw [hj, tok_run_entry_last o ps hbPs e (hGood e (List.mem_cons_self e []))]
      simp [flattenSpec]
    | cons e2 es3 =>
      have hj : jsJoin is ((e :: e2 :: es3).map (renderEntry o ps))
          = renderEntry o ps e ++ is ++ jsJoin is ((e2 :: es3).map (renderEntry o ps)) := rfl
      rw [hj]
      have h1 := tok_run_entry o ps hbPs e (hGood e (List.mem_cons_self e (e2 :: es3)))
        is hbIs (jsJoin is ((e2 :: es3).map (renderEntry o ps))) acc
      rw [show renderEntry o ps e ++ is ++ jsJoin is ((e2 :: es3).map (renderEntry o ps))
          = (renderEntry o ps e ++ is) ++ jsJoin is ((e2 :: es3).map (renderEntry o ps)) by
        simp [List.append_assoc]]
      rw [h1]
      have h2 := ih (by simp) (fun u hu => hGood u (List.mem_cons_of_mem e hu))
        (acc ++ entryValues e)
      rw [h2]
      simp [flattenSpec]

/-- Claim C1 (amended): for every valid Command whose command name and
flat tokens are nonempty and contain no backslash, single-quote, tab or
newline characters, under default indentation and any recognized wrapping
value, the POSIX tokens of the rendered command are exactly the command
name followed by the flat argv of `toCommandWithFlatArgs` — for every
`quoting` value, in particular both "auto" and "extra-safe".  Without the
character restriction the claim is false: the renderer escapes a single
quote as backslash-quote inside single quotes, which POSIX reads
literally (see the counterexample, where a backslash comes back
doubled). -/
theorem claim_C1_round_trip (c : Command) (o : PrintOptions)
    (hmain : o.mainIndentation = none) (harg : o.argIndentation = none)
    (hwrap : ValidWrap o.argumentLineWrapping)
    (hname : GoodTok c.commandName)
    (hentries : ∀ e ∈ c.args, GoodEntry e) :
    ∃ s, getPrintableCommand c o = .ok s
      ∧ posixTokens s = some (c.commandName :: (toCommandWithFlatArgs c).2) := by
  have hmain0 : mainIndentation o = [] := by
    unfold mainIndentation
    rw [hmain]
    rfl
  have hind : argIndentation o = [' ', ' '] := by
    unfold argIndentation mainIndentation
    rw [hmain, harg]
    rfl
  have hlw : lineWrapSeparator o = [' ', bslash, nlChar, ' ', ' '] := by
    unfold lineWrapSeparator
    rw [hind]
    rfl
  obtain ⟨ps, hps, hbPs⟩ : ∃ ps, argPairSeparator o = .ok ps ∧ Breaker ps := by
    rcases hwrap with h | h | h | h | h
    · exact ⟨_, argPair_byEntry o (Or.inl h), breaker_space⟩
    · exact ⟨_, argPair_byEntry o (Or.inr h), breaker_space⟩
    · refine ⟨_, argPair_nested o h, ?_⟩
      rw [hlw, hind]
      exact breaker_nested
    · refine ⟨_, argPair_byArgument o h, ?_⟩
      rw [hlw]
      exact breaker_wrap
    · exact ⟨_, argPair_inline o h, breaker_space⟩
  obtain ⟨is, his, hbIs⟩ : ∃ is, intraEntrySeparator o = .ok is ∧ Breaker is := by
    rcases hwrap with h | h | h | h | h
    · refine ⟨_, intra_wrapped o (Or.inl h), ?_⟩
      rw [hind]
      exact breaker_wrap
    · refine ⟨_, intra_wrapped o (Or.inr (Or.inl h)), ?_⟩
      rw [hind]
      exact breaker_wrap
    · refine ⟨_, intra_wrapped o (Or.inr (Or.inr (Or.inl h))), ?_⟩
      rw [hind]
      exact breaker_wrap
    · refine ⟨_, intra_wrapped o (Or.inr (Or.inr (Or.inr h))), ?_⟩
      rw [hind]
      exact breaker_wrap
    · exact ⟨_, intra_inline o h, breaker_space⟩
  by_cases hargs : c.args = []
  · have h0 : separatorAfterCommand o c.args.length = .ok [] := by
      rw [hargs]
      rfl
    refine ⟨_, getPrintableCommand_ok c o ps is [] hps his h0, ?_⟩
    rw [hargs]
    unfold posixTokens
    rw [hmain0]
    rw [show ([] : Chars) ++ escapeArg c.commandName true o ++ []
        ++ jsJoin is (List.map (renderEntry o ps) [])
        = escapeArg c.commandName true o by simp [jsJoin]]
    have h1 := tok_run_escaped c.commandName true o hname [] none []
    rw [List.append_nil] at h1
    rw [h1, tokStep_nil_normal]
    unfold toCommandWithFlatArgs
    rw [hargs]
    simp [flushWord, curChars, jsFlat]
  · have hn : c.args.length ≠ 0 := by
      simpa [List.length_eq_zero] using hargs
    obtain ⟨sA, hsa, hbSA⟩ :
        ∃ sA, separatorAfterCommand o c.args.length = .ok sA ∧ Breaker sA := by
      cases hsk : o.skipLineWrapBeforeFirstArg with
      | none =>
        refine ⟨is, ?_, hbIs⟩
        rw [sepAfter_noskip o _ hn (Or.inl hsk)]
        exact his
      | some b =>
        cases b with
        | true => exact ⟨[' '], sepAfter_skip o _ hn hsk, breaker_space⟩
        | false =>
          refine ⟨is, ?_, hbIs⟩
          rw [sepAfter_noskip o _ hn (Or.inr hsk)]
          exact his
    refine ⟨_, getPrintableCommand_ok c o ps is sA hps his hsa, ?_⟩
    unfold posixTokens
    rw [hmain0, List.nil_append]
    rw [show escapeArg c.commandName true o ++ sA
        ++ jsJoin is (c.args.map (renderEntry o ps))
        = escapeArg c.commandName true o
          ++ (sA ++ jsJoin is (c.args.map (renderEntry o ps))) by
      simp [List.append_assoc]]
    rw [tok_run_escaped c.commandName true o hname _ none []]
    rw [hbSA (jsJoin is (c.args.map (renderEntry o ps))) (curChars none ++ c.commandName) []]
    rw [tok_run_entries o ps is hbPs hbIs c.args hargs hentries
      ([] ++ [curChars none ++ c.commandName])]
    unfold toCommandWithFlatArgs
    rw [jsFlat_eq_flattenSpec]
    simp [curChars]

/-- Witness for C1 (amended) at the rsync example under default options
(auto quoting) and under extra-safe quoting. -/
theorem claim_C1_round_trip_witness :
    GoodTok rsyncCommand.commandName
    ∧ (∀ e ∈ rsyncCommand.args, GoodEntry e)
    ∧ (∃ s, getPrintableCommand rsyncCommand defaultOptions = .ok s
        ∧ posixTokens s
          = some (rsyncCommand.commandName :: (toCommandWithFlatArgs rsyncCommand).2))
    ∧ (∃ s, getPrintableCommand rsyncCommand { quoting := some EXTRA_SAFE } = .ok s
        ∧ posixTokens s
          = some (rsyncCommand.commandName :: (toCommandWithFlatArgs rsyncCommand).2)) :=
  ⟨by decide, by decide,
   claim_C1_round_trip rsyncCommand defaultOptions rfl rfl (by decide)
     (by decide) (by decide),
   claim_C1_round_trip rsyncCommand { quoting := some EXTRA_SAFE } rfl rfl (by decide)
     (by decide) (by decide)⟩

/-- Counterexample to C1 as stated: `echo` with the single argument
a-backslash-b (three characters).  The default rendering quotes it with
the backslash doubled, and POSIX reads everything inside single quotes
literally, so parsing recovers a-backslash-backslash-b (four characters) —
not the flat argv. -/
theorem claim_C1_counterexample :
    getPrintableCommand cexBackslashCmd defaultOptions = .ok cexBackslashRendered
    ∧ posixTokens cexBackslashRendered
        = some ["echo".toList, ['a', bslash, bslash, 'b']]
    ∧ (toCommandWithFlatArgs cexBackslashCmd).2 = [['a', bslash, 'b']]
    ∧ posixTokens cexBackslashRendered
        ≠ some (cexBackslashCmd.commandName :: (toCommandWithFlatArgs cexBackslashCmd).2) := by
  refine ⟨rfl, by decide, rfl, by decide⟩

end PSC
